import Mathlib

/-!
Verification development for the `js_eyes` JavaScript crypto-usage scanner
(`js_eyes_scan_v2.py` / `js_eyes_scan_test.py`).  The Python source is
shallowly embedded: pure helpers become Lean functions on `List Char` /
`String`, the regex engine used by the detector is modelled by a small
backtracking matcher together with a parser for the regex subset the rule
library uses, file-system and network effects are made explicit parameters,
and Python `dict`s (insertion ordered, unique keys) become association lists.
-/

/-- Whitespace characters recognised by Python's `\s` and `str.strip()`
(ASCII range; all inputs in this development are ASCII). -/
def isWsChar (c : Char) : Bool :=
  c == ' ' || c == '\t' || c == '\n' || c == '\r' || c == '\x0b' || c == '\x0c'

/-- Word characters for Python's `\b` word boundary (`[A-Za-z0-9_]` on the
ASCII inputs used here). -/
def isWordChar (c : Char) : Bool :=
  c.isAlphanum || c == '_'

/-- Check that `ndl` is a prefix of `hay` (both as raw char lists). -/
def startsWithChars : List Char → List Char → Bool
  | [], _ => true
  | _ :: _, [] => false
  | a :: as, b :: bs => a == b && startsWithChars as bs

/-- Check that `ndl` occurs as a contiguous sublist of `hay`. -/
def containsSub (ndl : List Char) : List Char → Bool
  | [] => startsWithChars ndl []
  | c :: rest => startsWithChars ndl (c :: rest) || containsSub ndl rest

/-- String containment: `strContains hay ndl` is true iff `ndl` occurs in `hay`
(models Python's `ndl in hay`). -/
def strContains (hay ndl : String) : Bool :=
  containsSub ndl.data hay.data

/-- Check that `ndl` is a suffix of `hay` (models Python's `str.endswith`). -/
def isSuffixChars (ndl hay : List Char) : Bool :=
  startsWithChars ndl.reverse hay.reverse

/-- Models `js_url.endswith('.js')` from `crawl_and_detect`. -/
def endsJs (u : String) : Bool :=
  isSuffixChars ".js".data u.data

/-- True iff the two characters `a b` occur adjacently (in this order)
somewhere in the list; used to state the absence of `//`, `/*`, `*/`. -/
def hasPair (a b : Char) : List Char → Bool
  | x :: y :: rest => if x = a ∧ y = b then true else hasPair a b (y :: rest)
  | _ => false

/-- Skip characters up to (but not including) the next newline; the newline
itself is kept.  Models how `re.sub(r"//.*?$", "", code, flags=re.MULTILINE)`
deletes from `//` to the end of the line only. -/
def dropToNewline : List Char → List Char
  | [] => []
  | c :: rest => if c = '\n' then c :: rest else dropToNewline rest

/-- Fuelled worker for the single-line-comment pass of `remove_comments`:
at each `//` delete up to the end of the line, otherwise copy the character.
The fuel is only a structural-recursion device; it is never exhausted when
the pass is entered through `removeLineComments`. -/
def removeLineCommentsF : Nat → List Char → List Char
  | 0, l => l
  | _ + 1, [] => []
  | fuel + 1, c :: rest =>
    if c = '/' ∧ rest.head? = some '/' then removeLineCommentsF fuel (dropToNewline rest.tail)
    else c :: removeLineCommentsF fuel rest

/-- The single-line-comment pass `re.sub(r"//.*?$", "", js_code, flags=re.MULTILINE)`
of `remove_comments`. -/
def removeLineComments (l : List Char) : List Char :=
  removeLineCommentsF (l.length + 1) l

/-- Scan for the next `*/` and return the characters after it, if any.
Models the lazy `.*?\*/` part of the block-comment regex. -/
def findBlockClose : List Char → Option (List Char)
  | [] => none
  | c :: rest =>
    if c = '*' ∧ rest.head? = some '/' then some rest.tail else findBlockClose rest

/-- Fuelled worker for the block-comment pass of `remove_comments`:
at each `/*` delete up to and including the nearest following `*/` (the
regex `/\*.*?\*/` with `re.DOTALL` is lazy); a `/*` with no later `*/`
never matches and is kept verbatim. -/
def removeBlockCommentsF : Nat → List Char → List Char
  | 0, l => l
  | _ + 1, [] => []
  | fuel + 1, c :: rest =>
    if c = '/' ∧ rest.head? = some '*' then
      match findBlockClose rest.tail with
      | some rest' => removeBlockCommentsF fuel rest'
      | none => c :: rest
    else c :: removeBlockCommentsF fuel rest

/-- The block-comment pass `re.sub(r"/\*.*?\*/", "", code, flags=re.DOTALL)`
of `remove_comments`. -/
def removeBlockComments (l : List Char) : List Char :=
  removeBlockCommentsF (l.length + 1) l

/-- Translation of `JSEncryptionDetector.remove_comments`: first strip
single-line comments (`//` to end of line, per line), then strip block
comments (`/* ... */`, lazily matched, across lines).  The Python body is
wrapped in `try/except` returning the input unchanged on error; the Lean
model is total, so that branch is unreachable. -/
def remove_comments (js_code : String) : String :=
  String.mk (removeBlockComments (removeLineComments js_code.data))

/-- Split a character list on `'\n'`, keeping empty pieces. -/
def splitOnNl : List Char → List Char → List (List Char)
  | [], acc => [acc.reverse]
  | '\n' :: rest, acc => acc.reverse :: splitOnNl rest []
  | c :: rest, acc => splitOnNl rest (c :: acc)

/-- Models Python's `str.splitlines()` for LF-separated text (every input in
this development uses `'\n'` terminators only): empty string gives `[]`, and
a trailing newline does not produce a trailing empty line. -/
def pySplitlines (s : String) : List String :=
  match s.data with
  | [] => []
  | l =>
    let parts := splitOnNl l []
    (if l.getLast? == some '\n' then parts.dropLast else parts).map String.mk

/-- Models Python's `str.strip()` (whitespace removed from both ends). -/
def pyStrip (s : String) : String :=
  String.mk (((s.data.dropWhile isWsChar).reverse.dropWhile isWsChar).reverse)

/-- Abstract syntax for the regex subset used by the scanner's rule library:
literals (compared case-insensitively, modelling `re.IGNORECASE`), character
classes, `\s`, the `\b` word boundary, concatenation, alternation and greedy
Kleene star (`+` and `?` are encoded via `seq`/`alt`). -/
inductive RE where
  | eps
  | lit (c : Char)
  | cls (cs : List Char) (neg : Bool)
  | ws
  | wordB
  | seq (a b : RE)
  | alt (a b : RE)
  | star (r : RE)
deriving Repr

/-- Node count of a regex, used to size the matcher's fuel. -/
def reSize : RE → Nat
  | .seq a b => reSize a + reSize b + 1
  | .alt a b => reSize a + reSize b + 1
  | .star r => reSize r + 1
  | _ => 1

/-- Backtracking matcher anchored at the current position.  Returns every way
the regex can match a prefix of `s`, as `(remaining suffix, last consumed
character)` pairs, in Python's backtracking preference order (first result =
the match `re` would pick: greedy quantifiers, left alternative first).  The
second component tracks the character before the current position for `\b`.
The fuel bounds the recursion depth and is chosen large enough by callers
that it is never exhausted on the inputs evaluated in this development. -/
def reMatches : Nat → RE → List Char → Option Char → List (List Char × Option Char)
  | 0, _, _, _ => []
  | fuel + 1, re, s, p =>
    match re with
    | .eps => [(s, p)]
    | .lit c =>
      match s with
      | [] => []
      | x :: xs => if x.toLower == c.toLower then [(xs, some x)] else []
    | .cls cs neg =>
      match s with
      | [] => []
      | x :: xs =>
        if (cs.any fun c => c.toLower == x.toLower) != neg then [(xs, some x)] else []
    | .ws =>
      match s with
      | [] => []
      | x :: xs => if isWsChar x then [(xs, some x)] else []
    | .wordB =>
      let pw := match p with | some c => isWordChar c | none => false
      let nw := match s with | x :: _ => isWordChar x | [] => false
      if pw != nw then [(s, p)] else []
    | .seq a b => (reMatches fuel a s p).bind fun sp => reMatches fuel b sp.1 sp.2
    | .alt a b => reMatches fuel a s p ++ reMatches fuel b s p
    | .star r =>
      ((reMatches fuel r s p).filter fun sp => sp.1.length < s.length).bind
        (fun sp => reMatches fuel (.star r) sp.1 sp.2) ++ [(s, p)]

/-- The suffix remaining after the match Python's engine would pick at this
position, if the regex matches here at all. -/
def firstMatch (re : RE) (s : List Char) (p : Option Char) : Option (List Char) :=
  match reMatches ((reSize re + 2) * (s.length + 2) + 4) re s p with
  | [] => none
  | sp :: _ => some sp.1

/-- Fuelled scanning loop of `re.finditer`: try to match at each position from
left to right; on a match of length `L > 0` emit `(start, matched chars)` and
continue after the match; on no match advance one character.  (An empty match
is emitted and the scan advances one character; no pattern in the rule
library can match empty, so that branch is never taken there.) -/
def findIterAux (re : RE) : Nat → List Char → Option Char → Nat → List (Nat × List Char)
  | 0, _, _, _ => []
  | fuel + 1, s, prev, pos =>
    match firstMatch re s prev with
    | some rest =>
      let L := s.length - rest.length
      if L == 0 then
        match s with
        | [] => [(pos, [])]
        | c :: cs => (pos, []) :: findIterAux re fuel cs (some c) (pos + 1)
      else
        let consumed := s.take L
        (pos, consumed) ::
          findIterAux re fuel (s.drop L) consumed.getLast? (pos + L)
    | none =>
      match s with
      | [] => []
      | c :: cs => findIterAux re fuel cs (some c) (pos + 1)

/-- All non-overlapping matches of `re` over `code`, left to right, as
`(start position, matched chars)` — models `re.finditer(pattern, code,
re.IGNORECASE)` for the embedded regex subset. -/
def findIter (re : RE) (code : List Char) : List (Nat × List Char) :=
  findIterAux re (code.length + 1) code none 0

/-- Parse the body of a character class up to the closing `]`: plain
characters, plus `\"`-style escapes of non-alphanumeric characters (the only
class escapes the rule library uses). -/
def parseClassItems : List Char → Option (List Char × List Char)
  | ']' :: rest => some ([], rest)
  | '\\' :: c :: rest =>
    if c.isAlphanum then none
    else (parseClassItems rest).map fun lr => (c :: lr.1, lr.2)
  | '\\' :: [] => none
  | c :: rest => (parseClassItems rest).map fun lr => (c :: lr.1, lr.2)
  | [] => none

/-- Parse a character class after its opening `[` (optionally negated). -/
def parseClassBody : List Char → Option (RE × List Char)
  | '^' :: rest => (parseClassItems rest).map fun lr => (RE.cls lr.1 true, lr.2)
  | cs => (parseClassItems cs).map fun lr => (RE.cls lr.1 false, lr.2)

mutual

/-- Parse one regex atom: a group `( ... )`, a class `[ ... ]`, an escape
(`\b`, `\s`, or an escaped non-alphanumeric literal), or a literal character.
A bare quantifier or group close here is an error, as in `re.compile`. -/
def parseAtom : Nat → List Char → Option (RE × List Char)
  | 0, _ => none
  | fuel + 1, cs =>
    match cs with
    | '(' :: rest =>
      match parseAlt fuel rest with
      | some (r, ')' :: rest') => some (r, rest')
      | _ => none
    | '[' :: rest => parseClassBody rest
    | '\\' :: c :: rest =>
      if c == 'b' then some (.wordB, rest)
      else if c == 's' then some (.ws, rest)
      else if c.isAlphanum then none
      else some (.lit c, rest)
    | '\\' :: [] => none
    | c :: rest =>
      if c == ')' || c == '|' || c == '*' || c == '+' || c == '?' then none
      else some (.lit c, rest)
    | [] => none

/-- Parse a concatenation of atoms (each with an optional `*`/`+`/`?`
postfix), stopping at `|`, `)` or the end of the pattern. -/
def parseSeq : Nat → List Char → Option (RE × List Char)
  | 0, _ => none
  | fuel + 1, cs =>
    match cs with
    | [] => some (.eps, [])
    | ')' :: _ => some (.eps, cs)
    | '|' :: _ => some (.eps, cs)
    | _ =>
      match parseAtom fuel cs with
      | none => none
      | some (a, rest) =>
        let ar : RE × List Char :=
          match rest with
          | '*' :: r2 => (RE.star a, r2)
          | '+' :: r2 => (RE.seq a (RE.star a), r2)
          | '?' :: r2 => (RE.alt a RE.eps, r2)
          | _ => (a, rest)
        match parseSeq fuel ar.2 with
        | some (b, rest2) => some (RE.seq ar.1 b, rest2)
        | none => none

/-- Parse an alternation `seq | seq | ...`. -/
def parseAlt : Nat → List Char → Option (RE × List Char)
  | 0, _ => none
  | fuel + 1, cs =>
    match parseSeq fuel cs with
    | none => none
    | some (a, '|' :: r2) =>
      match parseAlt fuel r2 with
      | some (b, rest2) => some (RE.alt a b, rest2)
      | none => none
    | some (a, rest) => some (a, rest)

end

/-- Models `re.compile(pattern)` for the regex subset used by the rule
library: `some` on success, `none` on a syntax error (e.g. an unterminated
group, as in the invalid-rule scenario). -/
def reCompile (cs : List Char) : Option RE :=
  match parseAlt (4 * cs.length + 8) cs with
  | some (r, []) => some r
  | _ => none

/-- Compilation success of a pattern string — the oracle the rule validator
consults where the source calls `re.compile`. -/
def pyCompiles (s : String) : Bool :=
  (reCompile s.data).isSome

/-- A rule library: algorithm name → ordered pattern strings.  Python keeps
this as an insertion-ordered `dict` with unique keys; an association list
models it. -/
abbrev RuleLib := List (String × List String)

/-- The built-in default rule set from `_load_default_rules`, pattern strings
exactly as in the source. -/
def defaultRules : RuleLib :=
  [("MD5", ["\\bmd5\\b", "createHash\\s*\\(\\s*['\\\"]md5['\\\"]\\s*\\)"]),
   ("SHA-1", ["\\bsha1\\b", "createHash\\s*\\(\\s*['\\\"]sha1['\\\"]\\s*\\)"]),
   ("SHA-256", ["\\bsha256\\b", "createHash\\s*\\(\\s*['\\\"]sha256['\\\"]\\s*\\)"]),
   ("AES", ["\\baes\\b",
            "createCipher(iv)?\\s*\\(\\s*['\\\"]aes-[^'\\\"\\\\)]+['\\\"]\\s*\\)",
            "createDecipher(iv)?\\s*\\(\\s*['\\\"]aes-[^'\\\"\\\\)]+['\\\"]\\s*\\)"]),
   ("RSA", ["\\brsa\\b",
            "createSign\\s*\\(\\s*['\\\"]rsa-[^'\\\"\\\\)]+['\\\"]\\s*\\)",
            "createVerify\\s*\\(\\s*['\\\"]rsa-[^'\\\"\\\\)]+['\\\"]\\s*\\)"]),
   ("Base64", ["\\bbase64\\b", "\\b(atob|btoa)\\b",
               "fromCharCode\\s*\\(\\s*parseInt\\s*\\("]),
   ("DES", ["\\bdes\\b", "createCipher\\s*\\(\\s*['\\\"]des['\\\"]\\s*\\)"])]

/-- One detection record, as built by `detect_in_code` (the Python dict with
keys `algorithm`, `source`, `line`, `match`, `context`; `match` is a Lean
keyword, so the field is called `matched`). -/
structure MatchRec where
  algorithm : String
  source : String
  line : Nat
  matched : String
  context : String
deriving DecidableEq, Repr

/-- Translation of `_get_line_number`: number of newlines before `position`
(0-based line index). -/
def _get_line_number (code : List Char) (position : Nat) : Nat :=
  (code.take position).count '\n'

/-- Translation of `_get_context`: render the lines with 0-based indices in
`[max(0, line_num - context_lines - 1), min(len(lines), line_num + context_lines))`,
skipping blank lines, each as `Line <index+1>: <stripped text>`. -/
def _get_context (lines : List String) (line_num : Nat) (context_lines : Nat := 2) : String :=
  let start := line_num - context_lines - 1
  let stop := min lines.length (line_num + context_lines)
  String.intercalate "\n" ((List.range' start (stop - start)).filterMap fun i =>
    (lines.get? i).bind fun l =>
      let t := pyStrip l
      if t = "" then none else some ("Line " ++ toString (i + 1) ++ ": " ++ t))

/-- The context block exactly as the specification words it: the 1-based
lines from `max(1, line-2)` through `min(lastLine, line+2)` inclusive, each
non-blank line rendered as `Line <n>: <trimmed text>`, blank lines omitted. -/
def contextClaim (lines : List String) (line : Nat) : String :=
  let lo := max 1 (line - 2)
  let hi := min lines.length (line + 2)
  String.intercalate "\n" ((List.range' lo (hi + 1 - lo)).filterMap fun n =>
    (lines.get? (n - 1)).bind fun l =>
      let t := pyStrip l
      if t = "" then none else some ("Line " ++ toString n ++ ": " ++ t))

/-- The deduplication key of `_deduplicate`: (algorithm, source, line). -/
def dkey (r : MatchRec) : String × String × Nat :=
  (r.algorithm, r.source, r.line)

/-- Worker for `_deduplicate`, threading the `seen` key set. -/
def dedupAux (seen : List (String × String × Nat)) : List MatchRec → List MatchRec
  | [] => []
  | r :: rest =>
    if dkey r ∈ seen then dedupAux seen rest
    else r :: dedupAux (dkey r :: seen) rest

/-- Translation of `_deduplicate`: keep the first record for each
(algorithm, source, line) key, in order. -/
def _deduplicate (results : List MatchRec) : List MatchRec :=
  dedupAux [] results

/-- The results list `detect_in_code` accumulates before deduplication: for
every (algorithm, pattern) pair in rule-store order, every `finditer` match
over the comment-stripped code, with its 1-based line number and context
block.  A pattern that fails to compile is skipped (the `except re.error`
branch). -/
def rawResults (rules : RuleLib) (js_code : String) (source : String) : List MatchRec :=
  let cleaned := remove_comments js_code
  let lines := pySplitlines cleaned
  rules.bind fun ap =>
    ap.2.bind fun pat =>
      match reCompile pat.data with
      | none => []
      | some re =>
        (findIter re cleaned.data).map fun sm =>
          let ln := _get_line_number cleaned.data sm.1 + 1
          { algorithm := ap.1, source := source, line := ln,
            matched := String.mk sm.2, context := _get_context lines ln }

/-- Translation of `detect_in_code`: scan the comment-stripped code with every
rule pattern (case-insensitively), then deduplicate. -/
def detect_in_code (rules : RuleLib) (js_code : String) (source : String) : List MatchRec :=
  _deduplicate (rawResults rules js_code source)

/-- JSON values, as delivered by `json.loads` (object keys are strings and
keep insertion order). -/
inductive JVal where
  | str (s : String)
  | num (n : Int)
  | bool (b : Bool)
  | null
  | arr (xs : List JVal)
  | obj (kvs : List (String × JVal))

/-- The failure cases of `_validate_rules`, carrying the information the
source prints: the algorithm name and, for per-pattern failures, the 1-based
pattern index. -/
inductive RuleErr where
  | notObj
  | patternsNotList (alg : String)
  | patternNotString (alg : String) (idx : Nat)
  | invalidPattern (alg : String) (idx : Nat)
deriving DecidableEq, Repr

/-- Validate one algorithm's pattern list, indices starting at `i`
(the source enumerates from 1): each entry must be a string that compiles. -/
def validatePatterns (compiles : String → Bool) (alg : String) :
    Nat → List JVal → Except RuleErr Unit
  | _, [] => .ok ()
  | i, p :: rest =>
    match p with
    | .str s =>
      if compiles s then validatePatterns compiles alg (i + 1) rest
      else .error (.invalidPattern alg i)
    | _ => .error (.patternNotString alg i)

/-- Validate the entries of the top-level rules object in order, stopping at
the first failure, as `_validate_rules` does. -/
def validateEntries (compiles : String → Bool) : List (String × JVal) → Except RuleErr Unit
  | [] => .ok ()
  | e :: rest =>
    match e.2 with
    | .arr ps =>
      match validatePatterns compiles e.1 1 ps with
      | .ok _ => validateEntries compiles rest
      | .error err => .error err
    | _ => .error (.patternsNotList e.1)

/-- Translation of `_validate_rules`: the candidate must be a JSON object
whose values are lists of strings, every string compiling as a regex.  (The
source's `isinstance(alg, str)` check is vacuous after `json.loads`, since
JSON object keys are always strings.)  The error carries what the source
prints: algorithm name and 1-based pattern index. -/
def _validate_rules (compiles : String → Bool) : JVal → Except RuleErr Unit
  | .obj kvs => validateEntries compiles kvs
  | _ => .error .notObj

/-- Extract the typed rule library from a validated rules object. -/
def jvalToLib : JVal → RuleLib
  | .obj kvs =>
    kvs.map fun e =>
      (e.1,
       match e.2 with
       | .arr ps => ps.filterMap fun p => match p with | .str s => some s | _ => none
       | _ => [])
  | _ => []

/-- Translation of `load_custom_rules`.  The file system and JSON parser are
explicit: `file = none` means the file does not exist, `some none` a JSON
parse error, `some (some j)` the parsed value; `confirmAns` is the user's
answer to the overwrite confirmation.  Returns the Python `bool` result
together with the (possibly replaced) live rule library.  Every failure path
returns before the assignment `self.algorithms = rules`. -/
def load_custom_rules (compiles : String → Bool) (lib : RuleLib)
    (file : Option (Option JVal)) (confirmAns : Bool) : Bool × RuleLib :=
  match file with
  | none => (false, lib)
  | some none => (false, lib)
  | some (some j) =>
    match _validate_rules compiles j with
    | .error _ => (false, lib)
    | .ok _ => if confirmAns then (true, jvalToLib j) else (false, lib)

/-- One step of the merge loop in `merge_rules`: if the algorithm is already
present, extend its pattern list and deduplicate (`list(set(...))` — Python's
set iteration order is unspecified, so the model fixes one order and all
theorems about merging are stated at the level of membership only);
otherwise append the incoming entry unchanged. -/
def mergeOne : RuleLib → String → List String → RuleLib
  | [], alg, pats => [(alg, pats)]
  | e :: rest, alg, pats =>
    if e.1 = alg then (e.1, (e.2 ++ pats).dedup) :: rest
    else e :: mergeOne rest alg pats

/-- The merge loop of `merge_rules` over all incoming entries, in order. -/
def mergeLib (lib : RuleLib) (incoming : RuleLib) : RuleLib :=
  incoming.foldl (fun acc e => mergeOne acc e.1 e.2) lib

/-- Translation of `merge_rules`, with the same explicit file/parse/confirm
parameters as `load_custom_rules`.  The preview step (`_view_rules_file`)
fails exactly when the parse or validation fails, so it collapses into the
same staged checks; all failure paths return before the merge loop touches
the live library. -/
def merge_rules (compiles : String → Bool) (lib : RuleLib)
    (file : Option (Option JVal)) (confirmAns : Bool) : Bool × RuleLib :=
  match file with
  | none => (false, lib)
  | some none => (false, lib)
  | some (some j) =>
    match _validate_rules compiles j with
    | .error _ => (false, lib)
    | .ok _ => if confirmAns then (true, mergeLib lib (jvalToLib j)) else (false, lib)

/-- First-match association lookup of an algorithm's pattern list (Python
dict indexing; `[]` for a missing key). -/
def libPats : RuleLib → String → List String
  | [], _ => []
  | e :: rest, alg => if e.1 = alg then e.2 else libPats rest alg

/-- The algorithm names of a rule library, in order. -/
def keysOf (lib : RuleLib) : List String :=
  lib.map Prod.fst

/-- The invalid-rules scenario input: the parsed value of the rule file
`{"AES": ["not a valid ( regex"]}`. -/
def badAESJ : JVal :=
  JVal.obj [("AES", JVal.arr [JVal.str "not a valid ( regex"])]

/-- Whether a fetch in the crawl model hit a URL as a page (inside `_crawl`,
guarded by the visited set) or as an external script (the unguarded
`session.get(js_url)` before the recursive call). -/
inductive FetchKind where
  | page
  | script
deriving DecidableEq, Repr

/-- The crawler-visible state: the visited set (most recent first) and the
network fetch trace in order. -/
structure CrawlState where
  visited : List String
  fetches : List (FetchKind × String)
deriving DecidableEq, Repr

/-- Translation of the inner `_crawl` of `crawl_and_detect` over an abstract
link graph `g` (mapping each URL to the already-resolved `src` attributes of
its script tags, in document order).  All fetches succeed in the model — a
failed fetch in the source only abandons that branch.  Detection results are
irrelevant to the crawl claims and are not tracked; the fetch trace and
visited set follow the source exactly: a node is skipped if its depth
exceeds `max_depth` or it is already visited, otherwise it is marked visited
and its page fetched; each linked URL ending in `.js` and not visited is
script-fetched and then recursed into at `depth + 1`.  The fuel only bounds
the recursion structurally; when it reaches 0 the depth guard would return
anyway. -/
def crawlStep (g : String → List String) (maxDepth : Nat) :
    Nat → Nat → String → CrawlState → CrawlState
  | 0, _, _, s => s
  | fuel + 1, depth, u, s =>
    if maxDepth < depth then s
    else if u ∈ s.visited then s
    else
      let s1 : CrawlState := ⟨u :: s.visited, s.fetches ++ [(.page, u)]⟩
      (g u).foldl
        (fun acc j =>
          if endsJs j = true then
            if j ∈ acc.visited then acc
            else crawlStep g maxDepth fuel (depth + 1) j
                   ⟨acc.visited, acc.fetches ++ [(.script, j)]⟩
          else acc)
        s1

/-- Translation of `crawl_and_detect`'s traversal: start at depth 1 with an
empty visited set. -/
def crawl_and_detect (g : String → List String) (url : String) (maxDepth : Nat) : CrawlState :=
  crawlStep g maxDepth (maxDepth + 1) 1 url ⟨[], []⟩

/-- URLs reachable from `start` by following at most `n` link-graph edges. -/
def reachList (g : String → List String) (start : String) : Nat → List String
  | 0 => [start]
  | n + 1 => reachList g start n ++ (reachList g start n).bind g

/-- The URLs of the page fetches in a fetch trace, in order. -/
def pageUrls (l : List (FetchKind × String)) : List String :=
  l.filterMap fun e => match e.1 with | .page => some e.2 | .script => none

/-- Counterexample link graph for the crawl claims: page `p` links to the
single external script `a.js`, which links to nothing. -/
def exGraph (u : String) : List String :=
  if u = "p" then ["a.js"] else []

/-- The error cases of `save_detected_keys` /
`_get_unique_key_filename`. -/
inductive SaveErr where
  | resourceExhausted
deriving DecidableEq, Repr

/-- The candidate filename `key_<c>.json`. -/
def keyName (c : Nat) : String :=
  "key_" ++ toString c ++ ".json"

/-- The `while os.path.exists(...)` loop of `_get_unique_key_filename`: on an
existing `key_c.json` increment the counter, raising once it passes 1000.
The fuel (1001 from the caller) makes the recursion structural and is never
exhausted before the 1000 cap fires. -/
def keyLoop (fs : List String) : Nat → Nat → Except SaveErr String
  | 0, _ => .error .resourceExhausted
  | fuel + 1, c =>
    if keyName c ∈ fs then
      if 1000 < c + 1 then .error .resourceExhausted
      else keyLoop fs fuel (c + 1)
    else .ok (keyName c)

/-- Translation of `_get_unique_key_filename` over an explicit set `fs` of
existing files: `key.json` if absent, else the first absent `key_N.json`
from `N = 1`, failing with the resource-exhausted error past the 1000 cap. -/
def _get_unique_key_filename (fs : List String) : Except SaveErr String :=
  if "key.json" ∈ fs then keyLoop fs 1001 1 else .ok "key.json"

/-- Translation of `save_detected_keys`: refuse an empty result set; else
write the session to the unique filename (modelled by appending it to the
file set) and report success, or fail if the filename space is exhausted. -/
def save_detected_keys (results : List MatchRec) (fs : List String) : Bool × List String :=
  if results.isEmpty then (false, fs)
  else
    match _get_unique_key_filename fs with
    | .ok name => (true, fs ++ [name])
    | .error _ => (false, fs)

/-- A concrete one-record result set used to instantiate theorems with
hypotheses (it is what `detect_in_code` returns on the code `md5` with the
bare MD5 keyword rule). -/
def demoRec : MatchRec :=
  { algorithm := "MD5", source := "s", line := 1, matched := "md5", context := "Line 1: md5" }
theorem hasPair_cons_false {a b x : Char} {l : List Char}
    (h : hasPair a b (x :: l) = false) : hasPair a b l = false := by
  cases l with
  | nil => simp [hasPair]
  | cons y rest =>
    simp only [hasPair] at h
    split at h
    · exact absurd h (by simp)
    · exact h

theorem hasPair_head_false {a b x y : Char} {l : List Char}
    (h : hasPair a b (x :: y :: l) = false) : ¬ (x = a ∧ y = b) := by
  simp only [hasPair] at h
  split at h
  · exact absurd h (by simp)
  · assumption

theorem removeLineCommentsF_id :
    ∀ (fuel : Nat) (l : List Char), l.length < fuel →
      hasPair '/' '/' l = false → removeLineCommentsF fuel l = l := by
  intro fuel
  induction fuel with
  | zero => intro l h; omega
  | succ fuel ih =>
    intro l hlen hp
    cases l with
    | nil => rfl
    | cons c rest =>
      have hcond : ¬ (c = '/' ∧ rest.head? = some '/') := by
        rintro ⟨h1, h2⟩
        cases rest with
        | nil => simp at h2
        | cons y rs =>
          simp only [List.head?_cons, Option.some.injEq] at h2
          exact absurd ⟨h1, h2⟩ (hasPair_head_false hp)
      simp only [removeLineCommentsF, if_neg hcond]
      have : rest.length < fuel := by simpa using Nat.lt_of_succ_lt_succ (by simpa using hlen)
      rw [ih rest this (hasPair_cons_false hp)]

theorem removeLineComments_id {l : List Char}
    (hp : hasPair '/' '/' l = false) : removeLineComments l = l :=
  removeLineCommentsF_id (l.length + 1) l (Nat.lt_succ_self _) hp

theorem removeBlockCommentsF_id :
    ∀ (fuel : Nat) (l : List Char), l.length < fuel →
      hasPair '/' '*' l = false → removeBlockCommentsF fuel l = l := by
  intro fuel
  induction fuel with
  | zero => intro l h; omega
  | succ fuel ih =>
    intro l hlen hp
    cases l with
    | nil => rfl
    | cons c rest =>
      have hcond : ¬ (c = '/' ∧ rest.head? = some '*') := by
        rintro ⟨h1, h2⟩
        cases rest with
        | nil => simp at h2
        | cons y rs =>
          simp only [List.head?_cons, Option.some.injEq] at h2
          exact absurd ⟨h1, h2⟩ (hasPair_head_false hp)
      simp only [removeBlockCommentsF, if_neg hcond]
      have : rest.length < fuel := by simpa using Nat.lt_of_succ_lt_succ (by simpa using hlen)
      rw [ih rest this (hasPair_cons_false hp)]

theorem removeBlockComments_id {l : List Char}
    (hp : hasPair '/' '*' l = false) : removeBlockComments l = l :=
  removeBlockCommentsF_id (l.length + 1) l (Nat.lt_succ_self _) hp

theorem remove_comments_id (s : String)
    (h1 : hasPair '/' '/' s.data = false) (h2 : hasPair '/' '*' s.data = false) :
    remove_comments s = s := by
  unfold remove_comments
  rw [removeLineComments_id h1, removeBlockComments_id h2]

theorem findBlockClose_some_length :
    ∀ {l r : List Char}, findBlockClose l = some r → r.length + 2 ≤ l.length := by
  intro l
  induction l with
  | nil => intro r h; simp [findBlockClose] at h
  | cons x rest ih =>
    intro r h
    simp only [findBlockClose] at h
    split at h
    · rename_i hc
      cases rest with
      | nil => simp at hc
      | cons y ys =>
        simp only [Option.some.injEq] at h
        subst h
        simp
    · have := ih h
      simp
      omega

theorem removeBlockCommentsF_fuel :
    ∀ (fuel fuel' : Nat) (l : List Char), l.length < fuel → l.length < fuel' →
      removeBlockCommentsF fuel l = removeBlockCommentsF fuel' l := by
  intro fuel
  induction fuel with
  | zero => intro fuel' l h; omega
  | succ f ih =>
    intro fuel' l hlen hlen'
    cases fuel' with
    | zero => omega
    | succ f' =>
      cases l with
      | nil => rfl
      | cons x rest =>
        simp only [removeBlockCommentsF]
        split
        · rename_i hc
          cases hfc : findBlockClose rest.tail with
          | none => rfl
          | some rest' =>
            have hle := findBlockClose_some_length hfc
            have hrt : rest.tail.length ≤ rest.length := by
              cases rest <;> simp
            have h1 : rest'.length < f := by
              simp at hlen; omega
            have h2 : rest'.length < f' := by
              simp at hlen'; omega
            exact ih f' rest' h1 h2
        · rename_i hc
          have h1 : rest.length < f := by simp at hlen; omega
          have h2 : rest.length < f' := by simp at hlen'; omega
          rw [ih f' rest h1 h2]

theorem removeBlockCommentsF_append :
    ∀ (fuel : Nat) (a tail : List Char), (a ++ tail).length < fuel →
      hasPair '/' '*' a = false → tail.head? ≠ some '*' →
      removeBlockCommentsF fuel (a ++ tail) = a ++ removeBlockCommentsF fuel tail := by
  intro fuel
  induction fuel with
  | zero => intro a tail h; omega
  | succ f ih =>
    intro a tail hlen hp ht
    cases a with
    | nil => simp
    | cons x a' =>
      have hcond : ¬ (x = '/' ∧ (a' ++ tail).head? = some '*') := by
        rintro ⟨h1, h2⟩
        cases a' with
        | nil => exact ht (by simpa using h2)
        | cons y ys =>
          simp only [List.cons_append, List.head?_cons, Option.some.injEq] at h2
          exact absurd ⟨h1, h2⟩ (hasPair_head_false hp)
      have hstep : removeBlockCommentsF (f + 1) ((x :: a') ++ tail)
          = x :: removeBlockCommentsF f (a' ++ tail) := by
        simp only [List.cons_append, removeBlockCommentsF, List.append_eq, if_neg hcond]
      rw [hstep]
      have hlen' : (a' ++ tail).length < f := by simp at hlen ⊢; omega
      rw [ih a' tail hlen' (hasPair_cons_false hp) ht]
      have htl : tail.length < f := by simp at hlen; omega
      rw [removeBlockCommentsF_fuel f (f + 1) tail htl (by omega)]
      simp

theorem findBlockClose_marker (b c : List Char) (hb : hasPair '*' '/' b = false) :
    findBlockClose (b ++ '*' :: '/' :: c) = some c := by
  induction b with
  | nil => simp [findBlockClose]
  | cons x b' ih =>
    have hcond : ¬ (x = '*' ∧ (b' ++ '*' :: '/' :: c).head? = some '/') := by
      rintro ⟨h1, h2⟩
      cases b' with
      | nil => simp at h2
      | cons y ys =>
        simp only [List.cons_append, List.head?_cons, Option.some.injEq] at h2
        exact absurd ⟨h1, h2⟩ (hasPair_head_false hb)
    simp only [List.cons_append, findBlockClose, List.append_eq, if_neg hcond]
    exact ih (hasPair_cons_false hb)

theorem removeBlockComments_block (b c : List Char) (hb : hasPair '*' '/' b = false) :
    removeBlockComments ('/' :: '*' :: (b ++ '*' :: '/' :: c)) = removeBlockComments c := by
  unfold removeBlockComments
  have hlist : ('/' :: '*' :: (b ++ '*' :: '/' :: c)).length = b.length + c.length + 4 := by
    simp; omega
  rw [hlist]
  simp only [removeBlockCommentsF]
  rw [if_pos (by simp)]
  simp only [List.tail_cons]
  rw [findBlockClose_marker b c hb]
  exact removeBlockCommentsF_fuel _ _ c (by omega) (by omega)

theorem count_take_shift (a mid c : List Char) (p : Nat) (ch : Char) :
    ((a ++ (mid ++ c)).take (a.length + mid.length + p)).count ch
      = ((a ++ c).take (a.length + p)).count ch + mid.count ch := by
  have L1 : (a ++ (mid ++ c)).take (a.length + mid.length + p) = a ++ (mid ++ c.take p) := by
    rw [List.take_append_eq_append_take,
      List.take_of_length_le (show a.length ≤ a.length + mid.length + p by omega)]
    congr 1
    rw [show a.length + mid.length + p - a.length = mid.length + p by omega,
      List.take_append_eq_append_take,
      List.take_of_length_le (show mid.length ≤ mid.length + p by omega)]
    congr 1
    rw [show mid.length + p - mid.length = p by omega]
  have L2 : (a ++ c).take (a.length + p) = a ++ c.take p := by
    rw [List.take_append_eq_append_take,
      List.take_of_length_le (show a.length ≤ a.length + p by omega)]
    congr 1
    rw [show a.length + p - a.length = p by omega]
  rw [L1, L2]
  simp [List.count_append]
  omega

theorem dedupAux_subset :
    ∀ (seen : List (String × String × Nat)) (l : List MatchRec) (r : MatchRec),
      r ∈ dedupAux seen l → r ∈ l := by
  intro seen l
  induction l generalizing seen with
  | nil => intro r h; simp [dedupAux] at h
  | cons x rest ih =>
    intro r h
    simp only [dedupAux] at h
    split at h
    · exact List.mem_cons_of_mem _ (ih seen r h)
    · rcases List.mem_cons.mp h with h | h
      · exact h ▸ List.mem_cons_self x rest
      · exact List.mem_cons_of_mem _ (ih _ r h)

theorem dedupAux_key_not_seen :
    ∀ (seen : List (String × String × Nat)) (l : List MatchRec) (r : MatchRec),
      r ∈ dedupAux seen l → dkey r ∉ seen := by
  intro seen l
  induction l generalizing seen with
  | nil => intro r h; simp [dedupAux] at h
  | cons x rest ih =>
    intro r h
    simp only [dedupAux] at h
    split at h
    · exact ih seen r h
    · rename_i hkx
      rcases List.mem_cons.mp h with h | h
      · exact h ▸ hkx
      · intro hmem
        exact (ih _ r h) (List.mem_cons_of_mem _ hmem)

theorem dedupAux_pairwise :
    ∀ (seen : List (String × String × Nat)) (l : List MatchRec),
      (dedupAux seen l).Pairwise (fun a b => dkey a ≠ dkey b) := by
  intro seen l
  induction l generalizing seen with
  | nil => simp [dedupAux]
  | cons x rest ih =>
    simp only [dedupAux]
    split
    · exact ih seen
    · refine List.Pairwise.cons ?_ (ih _)
      intro y hy hxy
      exact (dedupAux_key_not_seen _ _ y hy) (by simp [hxy])

theorem dedupAux_first :
    ∀ (seen : List (String × String × Nat)) (l : List MatchRec) (r : MatchRec),
      r ∈ dedupAux seen l →
      ∃ pre suf, l = pre ++ r :: suf ∧ ∀ x ∈ pre, dkey x ≠ dkey r := by
  intro seen l
  induction l generalizing seen with
  | nil => intro r h; simp [dedupAux] at h
  | cons x rest ih =>
    intro r h
    simp only [dedupAux] at h
    split at h
    · rename_i hkx
      obtain ⟨pre, suf, heq, hpre⟩ := ih seen r h
      have hne : dkey x ≠ dkey r := by
        intro hxr
        exact (dedupAux_key_not_seen seen rest r h) (hxr ▸ hkx)
      exact ⟨x :: pre, suf, by simp [heq], by
        intro y hy
        rcases List.mem_cons.mp hy with hy | hy
        · exact hy ▸ hne
        · exact hpre y hy⟩
    · rename_i hkx
      rcases List.mem_cons.mp h with h | h
      · exact ⟨[], rest, by simp [h], by simp⟩
      · obtain ⟨pre, suf, heq, hpre⟩ := ih _ r h
        have hne : dkey x ≠ dkey r := by
          intro hxr
          exact (dedupAux_key_not_seen _ rest r h) (by simp [hxr])
        exact ⟨x :: pre, suf, by simp [heq], by
          intro y hy
          rcases List.mem_cons.mp hy with hy | hy
          · exact hy ▸ hne
          · exact hpre y hy⟩

theorem range'_shift (s n : Nat) :
    List.range' (s + 1) n = (List.range' s n).map (· + 1) := by
  induction n generalizing s with
  | zero => rfl
  | succ n ih =>
    rw [List.range'_succ, List.range'_succ, List.map_cons, ih]

theorem getContext_eq_contextClaim (lines : List String) (ln : Nat) :
    _get_context lines ln = contextClaim lines ln := by
  unfold _get_context contextClaim
  dsimp only
  congr 1
  rw [show max 1 (ln - 2) = (ln - 2 - 1) + 1 by omega,
    show min lines.length (ln + 2) + 1 - (ln - 2 - 1 + 1)
      = min lines.length (ln + 2) - (ln - 2 - 1) by omega,
    range'_shift, List.filterMap_map]
  apply List.filterMap_congr
  intro i _
  simp [Nat.add_sub_cancel]

theorem validatePatterns_ok_iff (compiles : String → Bool) (alg : String) :
    ∀ (i : Nat) (ps : List JVal),
      validatePatterns compiles alg i ps = .ok () ↔
        ∀ p ∈ ps, ∃ s, p = JVal.str s ∧ compiles s = true := by
  intro i ps
  induction ps generalizing i with
  | nil => simp [validatePatterns]
  | cons p rest ih =>
    cases p with
    | str s =>
      simp only [validatePatterns]
      by_cases hc : compiles s
      · rw [if_pos hc, ih (i + 1)]
        simp only [List.mem_cons, forall_eq_or_imp]
        constructor
        · intro hall; exact ⟨⟨s, rfl, hc⟩, hall⟩
        · intro hall; exact hall.2
      · rw [if_neg hc]
        simp only [List.mem_cons, forall_eq_or_imp]
        constructor
        · intro h; cases h
        · rintro ⟨⟨s', hs', hcs'⟩, -⟩
          cases hs'
          exact absurd hcs' (by simp [hc])
    | num n => simp [validatePatterns]
    | bool b => simp [validatePatterns]
    | null => simp [validatePatterns]
    | arr xs => simp [validatePatterns]
    | obj kvs => simp [validatePatterns]

theorem validateEntries_ok_iff (compiles : String → Bool) :
    ∀ kvs : List (String × JVal),
      validateEntries compiles kvs = .ok () ↔
        ∀ e ∈ kvs, ∃ ps, e.2 = JVal.arr ps ∧
          ∀ p ∈ ps, ∃ s, p = JVal.str s ∧ compiles s = true := by
  intro kvs
  induction kvs with
  | nil => simp [validateEntries]
  | cons e rest ih =>
    simp only [validateEntries]
    cases h2 : e.2 with
    | arr ps =>
      dsimp only
      cases hvp : validatePatterns compiles e.1 1 ps with
      | ok u =>
        dsimp only
        rw [ih]
        simp only [List.mem_cons, forall_eq_or_imp]
        constructor
        · intro hall
          exact ⟨⟨ps, h2, (validatePatterns_ok_iff compiles e.1 1 ps).mp (by rw [hvp])⟩, hall⟩
        · intro hall; exact hall.2
      | error err =>
        dsimp only
        simp only [List.mem_cons, forall_eq_or_imp]
        constructor
        · intro h; cases h
        · rintro ⟨⟨ps', hps', hall'⟩, -⟩
          rw [h2] at hps'
          cases hps'
          exact absurd ((validatePatterns_ok_iff compiles e.1 1 ps).mpr hall')
            (by simp [hvp])
    | str s =>
      simp only [List.mem_cons, forall_eq_or_imp]
      constructor
      · intro h; cases h
      · rintro ⟨⟨ps', hps', -⟩, -⟩; rw [h2] at hps'; cases hps'
    | num n =>
      simp only [List.mem_cons, forall_eq_or_imp]
      constructor
      · intro h; cases h
      · rintro ⟨⟨ps', hps', -⟩, -⟩; rw [h2] at hps'; cases hps'
    | bool b =>
      simp only [List.mem_cons, forall_eq_or_imp]
      constructor
      · intro h; cases h
      · rintro ⟨⟨ps', hps', -⟩, -⟩; rw [h2] at hps'; cases hps'
    | null =>
      simp only [List.mem_cons, forall_eq_or_imp]
      constructor
      · intro h; cases h
      · rintro ⟨⟨ps', hps', -⟩, -⟩; rw [h2] at hps'; cases hps'
    | obj kvs' =>
      simp only [List.mem_cons, forall_eq_or_imp]
      constructor
      · intro h; cases h
      · rintro ⟨⟨ps', hps', -⟩, -⟩; rw [h2] at hps'; cases hps'

theorem keysOf_cons (e : String × List String) (rest : RuleLib) :
    keysOf (e :: rest) = e.1 :: keysOf rest := rfl

theorem libPats_cons (e : String × List String) (rest : RuleLib) (x : String) :
    libPats (e :: rest) x = if e.1 = x then e.2 else libPats rest x := rfl

theorem mergeOne_cons (e : String × List String) (rest : RuleLib) (alg : String)
    (pats : List String) :
    mergeOne (e :: rest) alg pats
      = if e.1 = alg then (e.1, (e.2 ++ pats).dedup) :: rest
        else e :: mergeOne rest alg pats := rfl

theorem libPats_mergeOne_self :
    ∀ (lib : RuleLib) (alg : String) (pats : List String),
      libPats (mergeOne lib alg pats) alg
        = if alg ∈ keysOf lib then (libPats lib alg ++ pats).dedup else pats := by
  intro lib
  induction lib with
  | nil => intro alg pats; simp [mergeOne, libPats, keysOf]
  | cons e rest ih =>
    intro alg pats
    by_cases he : e.1 = alg
    · rw [mergeOne_cons, if_pos he, libPats_cons, if_pos he, libPats_cons, if_pos he]
      rw [if_pos (by rw [keysOf_cons]; exact List.mem_cons.mpr (Or.inl he.symm))]
    · have he' : ¬ (alg = e.1) := fun h => he h.symm
      rw [mergeOne_cons, if_neg he, libPats_cons, if_neg he, ih, libPats_cons, if_neg he]
      by_cases hk : alg ∈ keysOf rest
      · rw [if_pos hk, if_pos (by rw [keysOf_cons]; exact List.mem_cons.mpr (Or.inr hk))]
      · have hnmem : alg ∉ keysOf (e :: rest) := by
          rw [keysOf_cons]
          intro hmem
          rcases List.mem_cons.mp hmem with h | h
          · exact he' h
          · exact hk h
        rw [if_neg hk, if_neg hnmem]

theorem libPats_mergeOne_other :
    ∀ (lib : RuleLib) (alg : String) (pats : List String) (x : String), x ≠ alg →
      libPats (mergeOne lib alg pats) x = libPats lib x := by
  intro lib
  induction lib with
  | nil =>
    intro alg pats x hx
    rw [show mergeOne [] alg pats = [(alg, pats)] from rfl, libPats_cons]
    rw [if_neg (fun h => hx h.symm)]
  | cons e rest ih =>
    intro alg pats x hx
    by_cases he : e.1 = alg
    · have hex : ¬ (e.1 = x) := fun h => hx (h.symm.trans he)
      rw [mergeOne_cons, if_pos he, libPats_cons, libPats_cons]
      simp only [if_neg hex]
    · rw [mergeOne_cons, if_neg he, libPats_cons, libPats_cons]
      by_cases hex : e.1 = x
      · rw [if_pos hex, if_pos hex]
      · rw [if_neg hex, if_neg hex, ih _ _ _ hx]

theorem keysOf_mergeOne :
    ∀ (lib : RuleLib) (alg : String) (pats : List String) (x : String),
      x ∈ keysOf (mergeOne lib alg pats) ↔ x ∈ keysOf lib ∨ x = alg := by
  intro lib
  induction lib with
  | nil => intro alg pats x; simp [mergeOne, keysOf]
  | cons e rest ih =>
    intro alg pats x
    by_cases he : e.1 = alg
    · rw [mergeOne_cons, if_pos he, keysOf_cons, keysOf_cons]
      simp only [List.mem_cons]
      subst he
      tauto
    · rw [mergeOne_cons, if_neg he, keysOf_cons, keysOf_cons, List.mem_cons, List.mem_cons, ih]
      tauto

theorem libPats_eq_nil_of_not_key :
    ∀ (lib : RuleLib) (x : String), x ∉ keysOf lib → libPats lib x = [] := by
  intro lib
  induction lib with
  | nil => intro x _; rfl
  | cons e rest ih =>
    intro x hx
    rw [keysOf_cons] at hx
    have h1 : ¬ (e.1 = x) := fun h => hx (List.mem_cons.mpr (Or.inl h.symm))
    rw [libPats_cons, if_neg h1]
    exact ih x (fun h => hx (List.mem_cons.mpr (Or.inr h)))

theorem mem_libPats_mergeLib :
    ∀ (inc lib : RuleLib), (keysOf inc).Nodup →
      ∀ (x : String) (s : String),
        s ∈ libPats (mergeLib lib inc) x ↔ s ∈ libPats lib x ∨ s ∈ libPats inc x := by
  intro inc
  induction inc with
  | nil => intro lib _ x s; simp [mergeLib, libPats]
  | cons e rest ih =>
    intro lib hnd x s
    rw [keysOf_cons] at hnd
    have hcons := List.nodup_cons.mp hnd
    rw [show mergeLib lib (e :: rest) = mergeLib (mergeOne lib e.1 e.2) rest from rfl]
    rw [ih _ hcons.2 x s]
    by_cases hx : x = e.1
    · rw [hx]
      rw [libPats_mergeOne_self]
      rw [libPats_eq_nil_of_not_key rest e.1 hcons.1]
      rw [libPats_cons, if_pos rfl]
      by_cases hk : e.1 ∈ keysOf lib
      · rw [if_pos hk]
        simp [List.mem_dedup]
      · rw [if_neg hk, libPats_eq_nil_of_not_key lib e.1 hk]
        simp
    · rw [libPats_mergeOne_other _ _ _ _ hx]
      rw [libPats_cons, if_neg (fun h => hx h.symm)]

theorem mem_keysOf_mergeLib :
    ∀ (inc lib : RuleLib) (x : String),
      x ∈ keysOf (mergeLib lib inc) ↔ x ∈ keysOf lib ∨ x ∈ keysOf inc := by
  intro inc
  induction inc with
  | nil => intro lib x; simp [mergeLib, keysOf]
  | cons e rest ih =>
    intro lib x
    rw [show mergeLib lib (e :: rest) = mergeLib (mergeOne lib e.1 e.2) rest from rfl]
    rw [ih, keysOf_mergeOne, keysOf_cons, List.mem_cons]
    tauto

theorem libPats_mergeLib_absent :
    ∀ (inc lib : RuleLib) (alg : String), alg ∉ keysOf inc →
      libPats (mergeLib lib inc) alg = libPats lib alg := by
  intro inc
  induction inc with
  | nil => intro lib alg _; rfl
  | cons e rest ih =>
    intro lib alg halg
    rw [keysOf_cons] at halg
    rw [show mergeLib lib (e :: rest) = mergeLib (mergeOne lib e.1 e.2) rest from rfl]
    rw [ih _ alg (fun h => halg (List.mem_cons.mpr (Or.inr h)))]
    exact libPats_mergeOne_other _ _ _ _
      (fun h => halg (List.mem_cons.mpr (Or.inl h)))

theorem libPats_mergeLib_new :
    ∀ (inc lib : RuleLib) (alg : String), (keysOf inc).Nodup → alg ∉ keysOf lib →
      libPats (mergeLib lib inc) alg = libPats inc alg := by
  intro inc
  induction inc with
  | nil =>
    intro lib alg _ hlib
    rw [show mergeLib lib [] = lib from rfl]
    rw [libPats_eq_nil_of_not_key lib alg hlib]
    rfl
  | cons e rest ih =>
    intro lib alg hnd hlib
    rw [keysOf_cons] at hnd
    have hcons := List.nodup_cons.mp hnd
    rw [show mergeLib lib (e :: rest) = mergeLib (mergeOne lib e.1 e.2) rest from rfl]
    by_cases hx : alg = e.1
    · subst hx
      rw [libPats_mergeLib_absent rest _ _ hcons.1]
      rw [libPats_mergeOne_self, if_neg hlib, libPats_cons, if_pos rfl]
    · rw [ih _ alg hcons.2 (by
        rw [keysOf_mergeOne]
        push_neg
        exact ⟨hlib, hx⟩)]
      rw [libPats_cons, if_neg (fun h => hx h.symm)]

theorem keyLoop_ok (fs : List String) (n : Nat) (hn : n ≤ 1000)
    (hnot : keyName n ∉ fs) (hall : ∀ m, 1 ≤ m → m < n → keyName m ∈ fs) :
    ∀ (fuel c : Nat), 1 ≤ c → c ≤ n → n - c < fuel →
      keyLoop fs fuel c = .ok (keyName n) := by
  intro fuel
  induction fuel with
  | zero => intro c h1 h2 h3; omega
  | succ f ih =>
    intro c h1 h2 h3
    by_cases hcn : c = n
    · subst hcn
      simp [keyLoop, hnot]
    · have hc : keyName c ∈ fs := hall c h1 (by omega)
      have hcap : ¬ (1000 < c + 1) := by omega
      simp only [keyLoop, if_pos hc, if_neg hcap]
      exact ih (c + 1) (by omega) (by omega) (by omega)

theorem keyLoop_exhausted (fs : List String)
    (hall : ∀ m, 1 ≤ m → m ≤ 1000 → keyName m ∈ fs) :
    ∀ (fuel c : Nat), 1 ≤ c → c ≤ 1000 →
      keyLoop fs fuel c = .error .resourceExhausted := by
  intro fuel
  induction fuel with
  | zero => intro c _ _; rfl
  | succ f ih =>
    intro c h1 h2
    have hc : keyName c ∈ fs := hall c h1 h2
    by_cases hcap : 1000 < c + 1
    · simp [keyLoop, hc, hcap]
    · simp only [keyLoop, if_pos hc, if_neg hcap]
      exact ih (c + 1) (by omega) (by omega)

theorem pageUrls_append (a b : List (FetchKind × String)) :
    pageUrls (a ++ b) = pageUrls a ++ pageUrls b :=
  List.filterMap_append a b _

theorem pageUrls_script (j : String) (l : List (FetchKind × String)) :
    pageUrls ((FetchKind.script, j) :: l) = pageUrls l := rfl

theorem pageUrls_page (u : String) (l : List (FetchKind × String)) :
    pageUrls ((FetchKind.page, u) :: l) = u :: pageUrls l := rfl

theorem reachList_subset_succ (g : String → List String) (start : String) (n : Nat) :
    reachList g start n ⊆ reachList g start (n + 1) := by
  intro x hx
  rw [show reachList g start (n + 1)
      = reachList g start n ++ (reachList g start n).bind g from rfl]
  exact List.mem_append_left _ hx

theorem reachList_mono (g : String → List String) (start : String) {m n : Nat}
    (h : m ≤ n) : reachList g start m ⊆ reachList g start n := by
  induction h with
  | refl => exact fun x hx => hx
  | step h ih => exact fun x hx => reachList_subset_succ g start _ (ih hx)

theorem reachList_step (g : String → List String) (start : String) {u v : String} {n : Nat}
    (hu : u ∈ reachList g start n) (hv : v ∈ g u) : v ∈ reachList g start (n + 1) := by
  rw [show reachList g start (n + 1)
      = reachList g start n ++ (reachList g start n).bind g from rfl]
  exact List.mem_append_right _ (List.mem_bind.mpr ⟨u, hu, hv⟩)

theorem crawlStep_spec (g : String → List String) (start : String) (maxDepth : Nat) :
    ∀ (fuel depth : Nat) (u : String) (s : CrawlState),
      1 ≤ depth → u ∈ reachList g start (depth - 1) →
      ∃ newV newF,
        (crawlStep g maxDepth fuel depth u s).visited = newV ++ s.visited ∧
        (crawlStep g maxDepth fuel depth u s).fetches = s.fetches ++ newF ∧
        pageUrls newF = newV.reverse ∧
        (∀ x ∈ newV, x ∉ s.visited) ∧
        newV.Nodup ∧
        (∀ e ∈ newF, e.2 ∈ reachList g start maxDepth) := by
  intro fuel
  induction fuel with
  | zero =>
    intro depth u s _ _
    exact ⟨[], [], rfl, by simp [crawlStep], rfl, by simp, List.nodup_nil, by simp⟩
  | succ fuel ih =>
    intro depth u s hdep hreach
    by_cases hg : maxDepth < depth
    · rw [show crawlStep g maxDepth (fuel + 1) depth u s = s from by
        simp only [crawlStep, if_pos hg]]
      exact ⟨[], [], rfl, by simp, rfl, by simp, List.nodup_nil, by simp⟩
    · by_cases hv : u ∈ s.visited
      · rw [show crawlStep g maxDepth (fuel + 1) depth u s = s from by
          simp only [crawlStep, if_neg hg, if_pos hv]]
        exact ⟨[], [], rfl, by simp, rfl, by simp, List.nodup_nil, by simp⟩
      · have hdle : depth ≤ maxDepth := by omega
        -- the per-link fold, over any accumulator and link list within reach
        have hfold :
            ∀ (l : List String) (acc : CrawlState),
              (∀ j ∈ l, j ∈ reachList g start depth) →
              ∃ newV newF,
                (l.foldl (fun acc j =>
                    if endsJs j = true then
                      if j ∈ acc.visited then acc
                      else crawlStep g maxDepth fuel (depth + 1) j
                        ⟨acc.visited, acc.fetches ++ [(FetchKind.script, j)]⟩
                    else acc) acc).visited = newV ++ acc.visited ∧
                (l.foldl (fun acc j =>
                    if endsJs j = true then
                      if j ∈ acc.visited then acc
                      else crawlStep g maxDepth fuel (depth + 1) j
                        ⟨acc.visited, acc.fetches ++ [(FetchKind.script, j)]⟩
                    else acc) acc).fetches = acc.fetches ++ newF ∧
                pageUrls newF = newV.reverse ∧
                (∀ x ∈ newV, x ∉ acc.visited) ∧
                newV.Nodup ∧
                (∀ e ∈ newF, e.2 ∈ reachList g start maxDepth) := by
          intro l
          induction l with
          | nil =>
            intro acc _
            exact ⟨[], [], rfl, by simp, rfl, by simp, List.nodup_nil, by simp⟩
          | cons j rest ihl =>
            intro acc hl
            have hj : j ∈ reachList g start depth := hl j (List.mem_cons_self j rest)
            simp only [List.foldl_cons]
            -- spec for the single step on j
            have hstep :
                ∃ newV1 newF1,
                  ((if endsJs j = true then
                      if j ∈ acc.visited then acc
                      else crawlStep g maxDepth fuel (depth + 1) j
                        ⟨acc.visited, acc.fetches ++ [(FetchKind.script, j)]⟩
                    else acc)).visited = newV1 ++ acc.visited ∧
                  ((if endsJs j = true then
                      if j ∈ acc.visited then acc
                      else crawlStep g maxDepth fuel (depth + 1) j
                        ⟨acc.visited, acc.fetches ++ [(FetchKind.script, j)]⟩
                    else acc)).fetches = acc.fetches ++ newF1 ∧
                  pageUrls newF1 = newV1.reverse ∧
                  (∀ x ∈ newV1, x ∉ acc.visited) ∧
                  newV1.Nodup ∧
                  (∀ e ∈ newF1, e.2 ∈ reachList g start maxDepth) := by
              by_cases hejs : endsJs j = true
              · by_cases hjv : j ∈ acc.visited
                · rw [if_pos hejs]
                  rw [if_pos hjv]
                  exact ⟨[], [], rfl, by simp, rfl, by simp, List.nodup_nil, by simp⟩
                · rw [if_pos hejs, if_neg hjv]
                  have hjreach : j ∈ reachList g start ((depth + 1) - 1) := by
                    simpa using hj
                  obtain ⟨nV, nF, h1, h2, h3, h4, h5, h6⟩ :=
                    ih (depth + 1) j ⟨acc.visited, acc.fetches ++ [(FetchKind.script, j)]⟩
                      (by omega) hjreach
                  refine ⟨nV, (FetchKind.script, j) :: nF, h1, ?_, ?_, h4, h5, ?_⟩
                  · rw [h2]
                    simp
                  · rw [pageUrls_script, h3]
                  · intro e he
                    rcases List.mem_cons.mp he with he | he
                    · subst he
                      exact reachList_mono g start hdle hj
                    · exact h6 e he
              · rw [if_neg hejs]
                exact ⟨[], [], rfl, by simp, rfl, by simp, List.nodup_nil, by simp⟩
            obtain ⟨nV1, nF1, h1, h2, h3, h4, h5, h6⟩ := hstep
            obtain ⟨nV2, nF2, g1, g2, g3, g4, g5, g6⟩ :=
              ihl _ (fun x hx => hl x (List.mem_cons_of_mem _ hx))
            refine ⟨nV2 ++ nV1, nF1 ++ nF2, ?_, ?_, ?_, ?_, ?_, ?_⟩
            · rw [g1, h1, List.append_assoc]
            · rw [g2, h2, List.append_assoc]
            · rw [pageUrls_append, g3, h3, List.reverse_append]
            · intro x hx
              rcases List.mem_append.mp hx with hx | hx
              · intro hmem
                exact g4 x hx (by rw [h1]; exact List.mem_append_right _ hmem)
              · exact h4 x hx
            · rw [List.nodup_append]
              refine ⟨g5, h5, ?_⟩
              intro x hx2 hx1
              exact g4 x hx2 (by rw [h1]; exact List.mem_append_left _ hx1)
            · intro e he
              rcases List.mem_append.mp he with he | he
              · exact h6 e he
              · exact g6 e he
        -- assemble the node case
        rw [show crawlStep g maxDepth (fuel + 1) depth u s
            = (g u).foldl (fun acc j =>
                if endsJs j = true then
                  if j ∈ acc.visited then acc
                  else crawlStep g maxDepth fuel (depth + 1) j
                    ⟨acc.visited, acc.fetches ++ [(FetchKind.script, j)]⟩
                else acc)
              ⟨u :: s.visited, s.fetches ++ [(FetchKind.page, u)]⟩ from by
          simp only [crawlStep, if_neg hg, if_neg hv]]
        have hlinks : ∀ j ∈ g u, j ∈ reachList g start depth := by
          intro j hjg
          have := reachList_step g start hreach hjg
          rwa [show depth - 1 + 1 = depth from by omega] at this
        obtain ⟨nV, nF, h1, h2, h3, h4, h5, h6⟩ :=
          hfold (g u) ⟨u :: s.visited, s.fetches ++ [(FetchKind.page, u)]⟩ hlinks
        refine ⟨nV ++ [u], (FetchKind.page, u) :: nF, ?_, ?_, ?_, ?_, ?_, ?_⟩
        · rw [h1]
          simp
        · rw [h2]
          simp
        · rw [pageUrls_page, h3, List.reverse_append]
          simp
        · intro x hx
          rcases List.mem_append.mp hx with hx | hx
          · intro hmem
            exact h4 x hx (by simp [hmem])
          · rw [List.mem_singleton.mp hx]
            exact hv
        · rw [List.nodup_append]
          refine ⟨h5, List.nodup_singleton u, ?_⟩
          intro x hx1 hx2
          rw [List.mem_singleton.mp hx2] at hx1
          exact h4 u hx1 (by simp)
        · intro e he
          rcases List.mem_cons.mp he with he | he
          · subst he
            exact reachList_mono g start (by omega) hreach
          · exact h6 e he


/-- C1 counterexample: over the link graph where page `p` links once to the
external script `a.js`, crawling with `max_depth = 2` fetches `a.js` twice
over the network — once by the unguarded external-script fetch and once as a
page inside the recursive call — so the claim that every URL is fetched at
most once is false as stated. -/
theorem c1_counterexample :
    ¬ (∀ u : String,
        ((crawl_and_detect exGraph "p" 2).fetches.map Prod.snd).count u ≤ 1) :=
  fun h => absurd (h "a.js") (by decide)

/-- C1 amended: for every link graph, start URL and depth bound `d` in
`{1,2,3}`, each URL is processed (and page-fetched) as a crawl node at most
once, being added to the visited set exactly when its page fetch happens —
the page-fetch trace equals the visited set — and no URL reachable only via
paths longer than `d` hops from the start is ever fetched.  External script
fetches, however, happen before any visited-set insertion, so the same URL
can be network-fetched more than once (as a script and again as a page, or
repeatedly as a script from depth-limited pages). -/
theorem c1_amended_crawl (g : String → List String) (url : String) (d : Nat)
    (h1 : 1 ≤ d) (h2 : d ≤ 3) :
    (crawl_and_detect g url d).visited.Nodup ∧
    pageUrls (crawl_and_detect g url d).fetches = (crawl_and_detect g url d).visited.reverse ∧
    (∀ e ∈ (crawl_and_detect g url d).fetches, e.2 ∈ reachList g url d) := by
  obtain ⟨nV, nF, hv, hf, hp, hd, hn, hr⟩ :=
    crawlStep_spec g url d (d + 1) 1 url ⟨[], []⟩ (le_refl 1) (by simp [reachList])
  rw [show crawl_and_detect g url d = crawlStep g d (d + 1) 1 url ⟨[], []⟩ from rfl]
  rw [hv, hf]
  simp only [List.append_nil, List.nil_append]
  exact ⟨hn, hp, fun e he => hr e (by simpa using he)⟩

/-- Witness for the amended crawl claim at the counterexample graph with
depth 2. -/
theorem c1_amended_crawl_witness :
    (1 ≤ 2 ∧ 2 ≤ 3) ∧
    ((crawl_and_detect exGraph "p" 2).visited.Nodup ∧
      pageUrls (crawl_and_detect exGraph "p" 2).fetches
        = (crawl_and_detect exGraph "p" 2).visited.reverse ∧
      (∀ e ∈ (crawl_and_detect exGraph "p" 2).fetches, e.2 ∈ reachList exGraph "p" 2)) :=
  ⟨⟨by decide, by decide⟩, c1_amended_crawl exGraph "p" 2 (by decide) (by decide)⟩

/-- C2 counterexample: the input `let u = "http://x";` contains no comment —
only a string literal containing `//` — yet `remove_comments` does not leave
it untouched, so the claim that string literals with comment-like substrings
are preserved is false as stated. -/
theorem c2_counterexample :
    remove_comments "let u = \"http://x\";" ≠ "let u = \"http://x\";" := by
  decide

/-- C2 amended: `remove_comments` removes single-line comments (from `//` to
end of line) and block comments (`/* ... */`, lazily, possibly spanning
lines), but operates purely lexically: comment-like substrings inside
string/template literals are removed too.  Only text containing neither `//`
nor `/*` is guaranteed unchanged (first conjunct); the remaining conjuncts
evaluate a line comment, a block comment, and the string-literal truncation
on concrete inputs.  (The source's internal-error branch returning the input
untouched is unreachable in this total model.) -/
theorem c2_amended_lexical_strip :
    (∀ s : String, hasPair '/' '/' s.data = false → hasPair '/' '*' s.data = false →
        remove_comments s = s) ∧
    remove_comments "x = 1 // init\ny = 2" = "x = 1 \ny = 2" ∧
    remove_comments "a = 1/* note\nmore */ ;" = "a = 1 ;" ∧
    remove_comments "let u = \"http://x\";" = "let u = \"http:" :=
  ⟨remove_comments_id, by decide, by decide, by decide⟩

/-- Witness for the amended comment-stripping claim on a comment-free
input. -/
theorem c2_amended_lexical_strip_witness :
    (hasPair '/' '/' "var a = 1;".data = false ∧
      hasPair '/' '*' "var a = 1;".data = false) ∧
    remove_comments "var a = 1;" = "var a = 1;" :=
  ⟨⟨by decide, by decide⟩,
    c2_amended_lexical_strip.1 "var a = 1;" (by decide) (by decide)⟩

/-- C3 counterexample: on `const h = require('crypto').createHash('md5')`
with the default rules, the single surviving record's match field is the
bare keyword `md5` (the `\bmd5\b` pattern fires first inside the quoted
literal and wins deduplication), and `md5` does not contain the text
`createHash('md5')`, so the claim about the match field is false as
stated. -/
theorem c3_counterexample :
    (detect_in_code defaultRules "const h = require('crypto').createHash('md5')" "a.js").map
        MatchRec.matched = ["md5"] ∧
    strContains "md5" "createHash('md5')" = false :=
  ⟨by decide, by decide⟩

/-- C3 amended: running the detector over
`const h = require('crypto').createHash('md5')` with source `a.js` and the
default rule library returns exactly one record, with algorithm `MD5`,
source `a.js`, line 1, and match field `"md5"` — the bare-keyword pattern
`\bmd5\b` matches (case-insensitively) inside the quoted literal, comes
first in rule-store order, and deduplication by (algorithm, source, line)
drops the later `createHash('md5')` match. -/
theorem c3_amended_scenario :
    detect_in_code defaultRules "const h = require('crypto').createHash('md5')" "a.js"
      = [{ algorithm := "MD5", source := "a.js", line := 1, matched := "md5",
           context := "Line 1: const h = require('crypto').createHash('md5')" }] := by
  decide

/-- C4: for every code text, source identifier and rule library, no two
records returned by `detect_in_code` share the (algorithm, source, line)
key, and each surviving record is the first record with its key in the
pre-deduplication matching order (`rawResults`, which follows rule-store
insertion order). -/
theorem c4_dedup_invariant (rules : RuleLib) (code src : String) :
    (detect_in_code rules code src).Pairwise (fun a b => dkey a ≠ dkey b) ∧
    ∀ r ∈ detect_in_code rules code src,
      ∃ pre suf, rawResults rules code src = pre ++ r :: suf ∧
        ∀ x ∈ pre, dkey x ≠ dkey r :=
  ⟨dedupAux_pairwise [] _, fun r h => dedupAux_first [] _ r h⟩

/-- Witness for the deduplication invariant at a concrete detection run. -/
theorem c4_dedup_invariant_witness :
    (detect_in_code [("MD5", ["\\bmd5\\b"])] "md5" "s").Pairwise
        (fun a b => dkey a ≠ dkey b) ∧
    ∀ r ∈ detect_in_code [("MD5", ["\\bmd5\\b"])] "md5" "s",
      ∃ pre suf, rawResults [("MD5", ["\\bmd5\\b"])] "md5" "s" = pre ++ r :: suf ∧
        ∀ x ∈ pre, dkey x ≠ dkey r :=
  c4_dedup_invariant [("MD5", ["\\bmd5\\b"])] "md5" "s"

/-- C5: every record returned by `detect_in_code` comes from a concrete
match of one of its algorithm's patterns over the comment-stripped code; its
line number is the count of newline characters before the match start in
that normalized code plus one, and its context block is exactly the
specification's rendering: the lines from `max(1, line-2)` through
`min(lastLine, line+2)` inclusive, each non-blank line rendered as
`Line <n>: <trimmed text>` with its own 1-based number, blank lines
omitted (`contextClaim`). -/
theorem c5_line_and_context (rules : RuleLib) (code src : String) (r : MatchRec)
    (h : r ∈ detect_in_code rules code src) :
    ∃ pats pat re st m,
      (r.algorithm, pats) ∈ rules ∧ pat ∈ pats ∧ reCompile pat.data = some re ∧
      (st, m) ∈ findIter re (remove_comments code).data ∧
      r.line = ((remove_comments code).data.take st).count '\n' + 1 ∧
      r.matched = String.mk m ∧
      r.context = contextClaim (pySplitlines (remove_comments code)) r.line := by
  have hraw : r ∈ rawResults rules code src := dedupAux_subset [] _ r h
  simp only [rawResults, List.mem_bind] at hraw
  obtain ⟨ap, hap, pat, hpat, h3⟩ := hraw
  cases hre : reCompile pat.data with
  | none => rw [hre] at h3; simp at h3
  | some re =>
    rw [hre] at h3
    rw [List.mem_map] at h3
    obtain ⟨sm, hsm, heq⟩ := h3
    subst heq
    refine ⟨ap.2, pat, re, sm.1, sm.2, ?_, hpat, hre, ?_, rfl, rfl, ?_⟩
    · simpa [Prod.mk.eta] using hap
    · simpa [Prod.mk.eta] using hsm
    · exact getContext_eq_contextClaim _ _

/-- Witness for the line/context claim at a concrete record of a concrete
detection run. -/
theorem c5_line_and_context_witness :
    (demoRec ∈ detect_in_code [("MD5", ["\\bmd5\\b"])] "md5" "s") ∧
    ∃ pats pat re st m,
      (demoRec.algorithm, pats) ∈ [("MD5", ["\\bmd5\\b"])] ∧ pat ∈ pats ∧
      reCompile pat.data = some re ∧
      (st, m) ∈ findIter re (remove_comments "md5").data ∧
      demoRec.line = ((remove_comments "md5").data.take st).count '\n' + 1 ∧
      demoRec.matched = String.mk m ∧
      demoRec.context = contextClaim (pySplitlines (remove_comments "md5")) demoRec.line :=
  ⟨by decide, c5_line_and_context [("MD5", ["\\bmd5\\b"])] "md5" "s" demoRec (by decide)⟩

/-- C6: rule validation succeeds iff the candidate is a JSON object mapping
names to lists of strings in which every pattern compiles (first conjunct,
for any compilation oracle); and the parsed rule file
`{"AES": ["not a valid ( regex"]}` fails validation with an invalid-pattern
error citing algorithm `AES` and pattern index 1, so loading it fails and
leaves the library untouched (remaining conjuncts, with `re.compile`
modelled by the embedded regex parser). -/
theorem c6_validate_rules :
    (∀ (compiles : String → Bool) (j : JVal),
      _validate_rules compiles j = .ok () ↔
        ∃ kvs, j = JVal.obj kvs ∧ ∀ e ∈ kvs, ∃ ps, e.2 = JVal.arr ps ∧
          ∀ p ∈ ps, ∃ s, p = JVal.str s ∧ compiles s = true) ∧
    _validate_rules pyCompiles badAESJ = .error (RuleErr.invalidPattern "AES" 1) ∧
    ∀ (lib : RuleLib) (confirmAns : Bool),
      load_custom_rules pyCompiles lib (some (some badAESJ)) confirmAns = (false, lib) := by
  refine ⟨?_, by rfl, ?_⟩
  · intro compiles j
    cases j with
    | obj kvs =>
      rw [show _validate_rules compiles (JVal.obj kvs) = validateEntries compiles kvs from rfl]
      rw [validateEntries_ok_iff]
      constructor
      · intro h; exact ⟨kvs, rfl, h⟩
      · rintro ⟨kvs', heq, h⟩; cases heq; exact h
    | str s => simp [_validate_rules]
    | num n => simp [_validate_rules]
    | bool b => simp [_validate_rules]
    | null => simp [_validate_rules]
    | arr xs => simp [_validate_rules]
  · intro lib confirmAns
    have hv : _validate_rules pyCompiles badAESJ
        = .error (RuleErr.invalidPattern "AES" 1) := by rfl
    simp [load_custom_rules, hv]

/-- Witness for the validation claim: loading the invalid rule file fails
and leaves an empty library unchanged. -/
theorem c6_validate_rules_witness :
    load_custom_rules pyCompiles [] (some (some badAESJ)) true = (false, []) :=
  c6_validate_rules.2.2 [] true

/-- C7: whenever `load_custom_rules` or `merge_rules` reports failure — for a
missing file, a JSON parse error, a validation failure, or a declined
confirmation — the live rule library is exactly what it was before the call;
no partial overwrite occurs. -/
theorem c7_failure_preserves_rules (compiles : String → Bool) (lib : RuleLib)
    (file : Option (Option JVal)) (confirmAns : Bool) :
    ((load_custom_rules compiles lib file confirmAns).1 = false →
      (load_custom_rules compiles lib file confirmAns).2 = lib) ∧
    ((merge_rules compiles lib file confirmAns).1 = false →
      (merge_rules compiles lib file confirmAns).2 = lib) := by
  constructor
  · rcases file with _ | (_ | j)
    · intro _; rfl
    · intro _; rfl
    · simp only [load_custom_rules]
      cases _validate_rules compiles j with
      | ok u => cases confirmAns <;> simp
      | error e => intro _; rfl
  · rcases file with _ | (_ | j)
    · intro _; rfl
    · intro _; rfl
    · simp only [merge_rules]
      cases _validate_rules compiles j with
      | ok u => cases confirmAns <;> simp
      | error e => intro _; rfl

/-- Witness for the failure-preservation claim at a missing rule file. -/
theorem c7_failure_preserves_rules_witness :
    (load_custom_rules (fun _ => true) [] none true).2 = ([] : RuleLib) :=
  (c7_failure_preserves_rules (fun _ => true) [] none true).1 (by decide)

/-- C8: merging combines libraries by per-algorithm set union — a pattern is
in the merged library's entry for an algorithm iff it was in the existing or
the incoming entry; a brand-new algorithm's incoming pattern list is taken
verbatim; merging the same file twice yields the same per-algorithm pattern
sets as merging it once (idempotence); and the resulting set of algorithm
names does not depend on the order in which two files are merged.
(Python's `list(set(...))` iteration order is unspecified, so all pattern
facts are stated at membership level.) -/
theorem c8_merge_semantics (lib inc f1 f2 : RuleLib) (hinc : (keysOf inc).Nodup) :
    (∀ alg s, s ∈ libPats (mergeLib lib inc) alg ↔
        s ∈ libPats lib alg ∨ s ∈ libPats inc alg) ∧
    (∀ alg, alg ∉ keysOf lib → libPats (mergeLib lib inc) alg = libPats inc alg) ∧
    (∀ alg s, s ∈ libPats (mergeLib (mergeLib lib inc) inc) alg ↔
        s ∈ libPats (mergeLib lib inc) alg) ∧
    (∀ alg, alg ∈ keysOf (mergeLib (mergeLib lib f1) f2) ↔
        alg ∈ keysOf (mergeLib (mergeLib lib f2) f1)) := by
  refine ⟨fun alg s => mem_libPats_mergeLib inc lib hinc alg s,
    fun alg h => libPats_mergeLib_new inc lib alg hinc h, ?_, ?_⟩
  · intro alg s
    rw [mem_libPats_mergeLib inc _ hinc alg s,
      mem_libPats_mergeLib inc lib hinc alg s]
    tauto
  · intro alg
    rw [mem_keysOf_mergeLib, mem_keysOf_mergeLib, mem_keysOf_mergeLib, mem_keysOf_mergeLib]
    tauto

/-- Witness for the merge-semantics claim at concrete one-entry
libraries. -/
theorem c8_merge_semantics_witness :
    (keysOf [("Base64", ["\\bbase64\\b"])]).Nodup ∧
    ((∀ alg s, s ∈ libPats (mergeLib [("AES", ["\\baes\\b"])] [("Base64", ["\\bbase64\\b"])]) alg ↔
        s ∈ libPats [("AES", ["\\baes\\b"])] alg ∨ s ∈ libPats [("Base64", ["\\bbase64\\b"])] alg) ∧
      (∀ alg, alg ∉ keysOf [("AES", ["\\baes\\b"])] →
        libPats (mergeLib [("AES", ["\\baes\\b"])] [("Base64", ["\\bbase64\\b"])]) alg
          = libPats [("Base64", ["\\bbase64\\b"])] alg) ∧
      (∀ alg s, s ∈ libPats (mergeLib (mergeLib [("AES", ["\\baes\\b"])] [("Base64", ["\\bbase64\\b"])])
            [("Base64", ["\\bbase64\\b"])]) alg ↔
          s ∈ libPats (mergeLib [("AES", ["\\baes\\b"])] [("Base64", ["\\bbase64\\b"])]) alg) ∧
      (∀ alg, alg ∈ keysOf (mergeLib (mergeLib [("AES", ["\\baes\\b"])] []) []) ↔
          alg ∈ keysOf (mergeLib (mergeLib [("AES", ["\\baes\\b"])] []) []))) :=
  ⟨by decide,
    c8_merge_semantics [("AES", ["\\baes\\b"])] [("Base64", ["\\bbase64\\b"])] [] [] (by decide)⟩

/-- C9: persisting a session fails on an empty result set and leaves the file
set unchanged; otherwise the session is written to `key.json` when that file
does not exist, else to `key_N.json` for the smallest absent `N ≥ 1`, with a
hard resource-exhausted failure exactly when `key_1.json` … `key_1000.json`
all exist; and saving twice in succession from an empty directory produces
`key.json` then `key_1.json`. -/
theorem c9_persist_session :
    (∀ fs : List String, save_detected_keys [] fs = (false, fs)) ∧
    (∀ fs : List String, "key.json" ∉ fs → _get_unique_key_filename fs = .ok "key.json") ∧
    (∀ (fs : List String) (n : Nat), "key.json" ∈ fs → 1 ≤ n → n ≤ 1000 →
        keyName n ∉ fs → (∀ m, 1 ≤ m → m < n → keyName m ∈ fs) →
        _get_unique_key_filename fs = .ok (keyName n)) ∧
    (∀ fs : List String, "key.json" ∈ fs → (∀ m, 1 ≤ m → m ≤ 1000 → keyName m ∈ fs) →
        _get_unique_key_filename fs = .error .resourceExhausted) ∧
    (save_detected_keys [demoRec] [] = (true, ["key.json"]) ∧
      save_detected_keys [demoRec] ["key.json"] = (true, ["key.json", "key_1.json"])) := by
  refine ⟨fun fs => rfl, ?_, ?_, ?_, ⟨rfl, rfl⟩⟩
  · intro fs h
    simp [_get_unique_key_filename, h]
  · intro fs n hkey h1 h1000 hnot hall
    simp only [_get_unique_key_filename, if_pos hkey]
    exact keyLoop_ok fs n h1000 hnot hall 1001 1 (by omega) h1 (by omega)
  · intro fs hkey hall
    simp only [_get_unique_key_filename, if_pos hkey]
    exact keyLoop_exhausted fs hall 1001 1 (by omega) (by omega)

/-- Witness for the persistence claim: the first save goes to `key.json`. -/
theorem c9_persist_session_witness :
    _get_unique_key_filename [] = .ok "key.json" :=
  c9_persist_session.2.1 [] (by decide)

/-- C10: line numbers refer to the comment-stripped text.  For any input of
the shape `a ++ "/*" ++ b ++ "*/" ++ c` whose only comment is that block
(the hypotheses rule out other comment markers), comment removal yields
`a ++ c`, and the 1-based line number computed at any position `p` inside
`c` is smaller than the line of the same character in the original input by
the number of newlines inside the comment — i.e. by `k - 1` where the block
spans `k` source lines. -/
theorem c10_lines_after_comment_strip (a b c : List Char) (p : Nat)
    (h1 : hasPair '/' '/' (a ++ ('/' :: '*' :: (b ++ '*' :: '/' :: c))) = false)
    (h2 : hasPair '/' '*' a = false)
    (h3 : hasPair '*' '/' b = false)
    (h4 : hasPair '/' '*' c = false) :
    remove_comments (String.mk (a ++ ('/' :: '*' :: (b ++ '*' :: '/' :: c))))
      = String.mk (a ++ c) ∧
    _get_line_number (a ++ ('/' :: '*' :: (b ++ '*' :: '/' :: c)))
        (a.length + (4 + b.length) + p) + 1
      = (_get_line_number (a ++ c) (a.length + p) + 1) + b.count '\n' := by
  constructor
  · unfold remove_comments
    rw [show (String.mk (a ++ ('/' :: '*' :: (b ++ '*' :: '/' :: c)))).data
        = a ++ ('/' :: '*' :: (b ++ '*' :: '/' :: c)) from rfl]
    rw [removeLineComments_id h1]
    rw [show removeBlockComments (a ++ ('/' :: '*' :: (b ++ '*' :: '/' :: c)))
        = removeBlockCommentsF ((a ++ ('/' :: '*' :: (b ++ '*' :: '/' :: c))).length + 1)
            (a ++ ('/' :: '*' :: (b ++ '*' :: '/' :: c))) from rfl]
    rw [removeBlockCommentsF_append _ a _ (by omega) h2 (by simp)]
    rw [removeBlockCommentsF_fuel _ (('/' :: '*' :: (b ++ '*' :: '/' :: c)).length + 1) _
      (by simp; omega) (by omega)]
    rw [show removeBlockCommentsF (('/' :: '*' :: (b ++ '*' :: '/' :: c)).length + 1)
          ('/' :: '*' :: (b ++ '*' :: '/' :: c))
        = removeBlockComments ('/' :: '*' :: (b ++ '*' :: '/' :: c)) from rfl]
    rw [removeBlockComments_block b c h3, removeBlockComments_id h4]
  · have hmid : ('/' :: '*' :: (b ++ '*' :: '/' :: c)) = ('/' :: '*' :: b ++ ['*', '/']) ++ c := by
      simp
    have hlen : ('/' :: '*' :: b ++ ['*', '/']).length = 4 + b.length := by simp; omega
    have hcnt : ('/' :: '*' :: b ++ ['*', '/']).count '\n' = b.count '\n' := by
      simp [List.count_append, List.count_cons]
    unfold _get_line_number
    rw [hmid, show a.length + (4 + b.length) + p
        = a.length + ('/' :: '*' :: b ++ ['*', '/']).length + p by rw [hlen]]
    rw [count_take_shift a _ c p '\n', hcnt]
    omega

/-- Witness for the stripped-line-number claim: a two-line block comment
before `md5` shifts the reported line down by one. -/
theorem c10_lines_after_comment_strip_witness :
    (hasPair '/' '/' (([] : List Char) ++ ('/' :: '*' :: ("a\nb".data ++ '*' :: '/' :: "md5".data))) = false ∧
      hasPair '/' '*' ([] : List Char) = false ∧
      hasPair '*' '/' "a\nb".data = false ∧
      hasPair '/' '*' "md5".data = false) ∧
    (remove_comments (String.mk (([] : List Char) ++ ('/' :: '*' :: ("a\nb".data ++ '*' :: '/' :: "md5".data))))
        = String.mk (([] : List Char) ++ "md5".data) ∧
      _get_line_number (([] : List Char) ++ ('/' :: '*' :: ("a\nb".data ++ '*' :: '/' :: "md5".data)))
          ((List.length ([] : List Char)) + (4 + "a\nb".data.length) + 0) + 1
        = (_get_line_number (([] : List Char) ++ "md5".data) ((List.length ([] : List Char)) + 0) + 1)
            + "a\nb".data.count '\n') :=
  ⟨⟨by decide, by decide, by decide, by decide⟩,
    c10_lines_after_comment_strip [] "a\nb".data "md5".data 0
      (by decide) (by decide) (by decide) (by decide)⟩
